import Mathlib

/-!
Verification of the pre-deploy audit engine (`hooks/pre-deploy-check.py`).

Python strings are modelled as lists of characters (`Str`); Python `dict`s
as insertion-ordered association lists; Python exceptions as `Option`
(`none` = an exception escaped).  All definitions are transcribed from the
source; definitions whose name ends in `Model`, or `c6Expected`, follow the
specification's words and are compared against the transcribed code.
-/

abbrev Str := List Char

/-- An audit issue.  The decision, suppression and display logic of the hook
reads only the `id`, `severity` and `message` entries of the issue
dictionaries, so only those are modelled. -/
structure Issue where
  id : Str
  severity : Str
  message : Str
  deriving DecidableEq, Repr

/-! ### Decision engine (`main`, lines 1621-1689) -/

/-- `blocking_issues = [i for i in issues if i.get("id") in blocking_rules]`. -/
def mainBlockingIssues (issues : List Issue) (blockingRules : List Str) : List Issue :=
  issues.filter (fun i => decide (i.id ∈ blockingRules))

/-- `warning_issues = [i for i in issues if i.get("id") not in blocking_rules]`. -/
def mainWarningIssues (issues : List Issue) (blockingRules : List Str) : List Issue :=
  issues.filter (fun i => decide (i.id ∉ blockingRules))

/-- The exit code chosen by `main` after `run_audit` has produced `issues` and
`blocking_rules`: `0` when there are no issues, `2` when the blocking
partition is non-empty, `0` otherwise. -/
def mainExitCode (issues : List Issue) (blockingRules : List Str) : Nat :=
  if issues = [] then 0
  else if mainBlockingIssues issues blockingRules = [] then 0 else 2

/-- The rule id of the cost-simulation entry emitted by `estimate_loop_cost`. -/
def COST_SIM : Str := "COST_SIM".data

/-- The issue emitted by `estimate_loop_cost` (lines 1284-1289): id
`COST_SIM`, severity `INFO`. -/
def costSimIssue (msg : Str) : Issue :=
  ⟨COST_SIM, "INFO".data, msg⟩

/-- The blocking list computed by `format_issues` (lines 1427-1434): by rule id
when an explicit blocking set is passed, by `CRITICAL` severity otherwise. -/
def formatBlockingIssues (issues : List Issue) : Option (List Str) → List Issue
  | some B => issues.filter (fun i => decide (i.id ∈ B))
  | none => issues.filter (fun i => decide (i.severity = "CRITICAL".data))

/-- The warning list computed by `format_issues`; `COST_SIM` is excluded in
both modes. -/
def formatWarningIssues (issues : List Issue) : Option (List Str) → List Issue
  | some B => issues.filter (fun i => decide (i.id ∉ B ∧ i.id ≠ COST_SIM))
  | none => issues.filter (fun i => decide (i.severity ≠ "CRITICAL".data ∧ i.id ≠ COST_SIM))

/-- The cost-simulation list computed by `format_issues` (line 1436). -/
def formatCostSim (issues : List Issue) : List Issue :=
  issues.filter (fun i => decide (i.id = COST_SIM))

theorem mainExitCode_eq (issues : List Issue) (B : List Str) :
    mainExitCode issues B = if mainBlockingIssues issues B = [] then 0 else 2 := by
  unfold mainExitCode
  by_cases h : issues = []
  · subst h; simp [mainBlockingIssues]
  · simp [h]

theorem length_filter_partition (p : Issue → Bool) (l : List Issue) :
    (l.filter p).length + (l.filter (fun a => !p a)).length = l.length := by
  induction l with
  | nil => rfl
  | cons a t ih =>
    rw [List.filter_cons, List.filter_cons]
    cases h : p a
    · rw [if_neg (by decide), if_pos (by decide)]
      simp only [List.length_cons]
      omega
    · rw [if_pos (by decide), if_neg (by decide)]
      simp only [List.length_cons]
      omega

/-- C1: the decision step of `main` partitions the issue list by membership of
the issue id in the blocking-rule set, and the verdict is BLOCK (exit 2)
exactly when the blocking partition is non-empty; when no issue's id is in
the blocking set the verdict is ALLOW (exit 0), whatever the severities. -/
theorem c1_decision_partition (issues : List Issue) (B : List Str) :
    (∀ i, i ∈ mainBlockingIssues issues B ↔ i ∈ issues ∧ i.id ∈ B)
    ∧ (∀ i, i ∈ mainWarningIssues issues B ↔ i ∈ issues ∧ i.id ∉ B)
    ∧ (mainExitCode issues B = 2 ↔ mainBlockingIssues issues B ≠ [])
    ∧ ((∀ i ∈ issues, i.id ∉ B) → mainExitCode issues B = 0) := by
  refine ⟨?_, ?_, ?_, ?_⟩
  · intro i; simp [mainBlockingIssues]
  · intro i; simp [mainWarningIssues]
  · rw [mainExitCode_eq]
    by_cases h : mainBlockingIssues issues B = [] <;> simp [h]
  · intro h
    rw [mainExitCode_eq]
    have : mainBlockingIssues issues B = [] := by
      unfold mainBlockingIssues
      rw [List.filter_eq_nil_iff]
      intro i hi
      simpa using h i hi
    simp [this]

theorem c1_decision_partition_witness :
    mainExitCode [⟨"SEC001".data, "CRITICAL".data, []⟩] ["RES001".data] = 0 :=
  (c1_decision_partition [⟨"SEC001".data, "CRITICAL".data, []⟩] ["RES001".data]).2.2.2
    (by decide)

/-- C9: enlarging the blocking set moves issues only from the warning
partition to the blocking partition, the two partitions together always hold
exactly the issue list, and the verdict can only move from ALLOW to BLOCK. -/
theorem c9_decision_monotone (issues : List Issue) (B : List Str) (r : Str) :
    (∀ i ∈ mainBlockingIssues issues B, i ∈ mainBlockingIssues issues (r :: B))
    ∧ (∀ i ∈ mainWarningIssues issues (r :: B), i ∈ mainWarningIssues issues B)
    ∧ (∀ i, (i ∈ mainBlockingIssues issues (r :: B) ∨ i ∈ mainWarningIssues issues (r :: B))
        ↔ i ∈ issues)
    ∧ (mainBlockingIssues issues (r :: B)).length + (mainWarningIssues issues (r :: B)).length
        = issues.length
    ∧ (mainExitCode issues B = 2 → mainExitCode issues (r :: B) = 2) := by
  refine ⟨?_, ?_, ?_, ?_, ?_⟩
  · intro i hi
    simp only [mainBlockingIssues, List.mem_filter, decide_eq_true_iff] at hi ⊢
    exact ⟨hi.1, by simp [hi.2]⟩
  · intro i hi
    simp only [mainWarningIssues, List.mem_filter, decide_eq_true_iff] at hi ⊢
    exact ⟨hi.1, fun h => hi.2 (by simp [h])⟩
  · intro i
    simp only [mainBlockingIssues, mainWarningIssues, List.mem_filter, decide_eq_true_iff]
    constructor
    · rintro (h | h) <;> exact h.1
    · intro h
      by_cases hm : i.id ∈ r :: B
      · exact Or.inl ⟨h, hm⟩
      · exact Or.inr ⟨h, hm⟩
  · simpa [mainBlockingIssues, mainWarningIssues] using
      length_filter_partition (fun i => decide (i.id ∈ r :: B)) issues
  · intro h
    rw [mainExitCode_eq] at h ⊢
    by_cases hb : mainBlockingIssues issues B = []
    · simp [hb] at h
    · obtain ⟨i, hi⟩ := List.exists_mem_of_ne_nil _ hb
      have : i ∈ mainBlockingIssues issues (r :: B) := by
        simp only [mainBlockingIssues, List.mem_filter, decide_eq_true_iff] at hi ⊢
        exact ⟨hi.1, by simp [hi.2]⟩
      have hne : mainBlockingIssues issues (r :: B) ≠ [] := by
        intro hc; rw [hc] at this; exact absurd this (List.not_mem_nil i)
      simp [hne]

theorem c9_decision_monotone_witness :
    mainExitCode [⟨"SEC001".data, "CRITICAL".data, []⟩] ("RES001".data :: ["SEC001".data]) = 2 :=
  (c9_decision_monotone [⟨"SEC001".data, "CRITICAL".data, []⟩] ["SEC001".data]
    "RES001".data).2.2.2.2 (by decide)

/-- C2 counterexample: with `COST_SIM` opted into the blocking set, the
cost-simulation issue *is* placed in the blocking partition and its removal
flips the verdict from BLOCK to ALLOW; and with an empty blocking set it *is*
a member of `main`'s warning partition. -/
theorem c2_counterexample :
    costSimIssue "m".data ∈ mainBlockingIssues [costSimIssue "m".data] [COST_SIM]
    ∧ mainExitCode [costSimIssue "m".data] [COST_SIM] = 2
    ∧ mainExitCode [] [COST_SIM] = 0
    ∧ costSimIssue "m".data ∈ mainWarningIssues [costSimIssue "m".data] [] := by
  decide

theorem mainBlocking_filter_costsim (issues : List Issue) (B : List Str)
    (h : COST_SIM ∉ B) :
    mainBlockingIssues (issues.filter (fun i => decide (i.id ≠ COST_SIM))) B
      = mainBlockingIssues issues B := by
  unfold mainBlockingIssues
  rw [List.filter_filter]
  apply List.filter_congr
  intro i _
  by_cases hm : i.id ∈ B
  · have : i.id ≠ COST_SIM := fun hc => h (hc ▸ hm)
    simp [hm, this]
  · simp [hm]

/-- C2 (amended): provided `COST_SIM` is not itself in the blocking set, the
cost-simulation issue never reaches the blocking partition and its removal
never changes the verdict; the warning list rendered by `format_issues` never
contains it (in either mode), and in severity-fallback display mode the
INFO-severity cost-simulation entry is never shown as blocking.  (In `main`'s
own warning partition it does appear, and opting `COST_SIM` into the blocking
set makes it block, per the counterexample.) -/
theorem c2_costsim_amended (issues : List Issue) (B : List Str)
    (h : COST_SIM ∉ B) :
    (∀ i ∈ mainBlockingIssues issues B, i.id ≠ COST_SIM)
    ∧ (∀ bro : Option (List Str), ∀ i ∈ formatWarningIssues issues bro, i.id ≠ COST_SIM)
    ∧ (∀ msg, costSimIssue msg ∉ formatBlockingIssues issues none)
    ∧ mainExitCode (issues.filter (fun i => decide (i.id ≠ COST_SIM))) B
        = mainExitCode issues B := by
  refine ⟨?_, ?_, ?_, ?_⟩
  · intro i hi
    simp only [mainBlockingIssues, List.mem_filter, decide_eq_true_iff] at hi
    exact fun hc => h (hc ▸ hi.2)
  · intro bro i hi
    cases bro <;> simp only [formatWarningIssues, List.mem_filter, decide_eq_true_iff] at hi
    · exact hi.2.2
    · exact hi.2.2
  · intro msg hmem
    simp only [formatBlockingIssues, List.mem_filter, decide_eq_true_iff] at hmem
    have : ("INFO".data : Str) = "CRITICAL".data := hmem.2
    simp [costSimIssue] at this
  · rw [mainExitCode_eq, mainExitCode_eq, mainBlocking_filter_costsim issues B h]

theorem c2_costsim_amended_witness :
    mainExitCode ([costSimIssue "m".data].filter (fun i => decide (i.id ≠ COST_SIM)))
        ["SEC001".data]
      = mainExitCode [costSimIssue "m".data] ["SEC001".data] :=
  (c2_costsim_amended [costSimIssue "m".data] ["SEC001".data] (by decide)).2.2.2

/-! ### Inline suppression comments (`extract_suppressions` / `is_suppressed`, lines 36-82) -/

/-- Python `\s` on the characters the hook can meet (ASCII whitespace). -/
def isPySpace (c : Char) : Bool :=
  c = ' ' || c = '\t' || c = '\n' || c = '\r' || c = '\x0b' || c = '\x0c'

/-- The character class `[A-Z0-9_\s]` of the suppression regex under
`re.IGNORECASE`. -/
def isSuppClassChar (c : Char) : Bool :=
  c.isAlpha || c.isDigit || c = '_' || isPySpace c

def suppressionMarker : Str := "@pre-deploy-ok".data

def toUpperStr (s : Str) : Str := s.map Char.toUpper

def toLowerStr (s : Str) : Str := s.map Char.toLower

/-- Group 1 semantics of `(?:\s+([A-Z0-9_\s]+))?` at the position just after
the marker: at least one whitespace, then a greedy run of class characters;
when the class run after all the whitespace is empty the engine backtracks one
whitespace character into the group (possible only when there are at least
two). -/
def suppGroup (l : Str) : Option Str :=
  let w := l.takeWhile isPySpace
  let rest := l.drop w.length
  let t := rest.takeWhile isSuppClassChar
  if w.length = 0 then none
  else if t ≠ [] then some t
  else if 2 ≤ w.length then some (w.drop (w.length - 1))
  else none

/-- After a `//` or `/*` opener: `\s*` then the case-insensitive marker, then
the optional rule group. -/
def afterOpener (l : Str) : Option (Option Str) :=
  let l1 := l.dropWhile isPySpace
  if (l1.take 14).map Char.toLower = suppressionMarker then some (suppGroup (l1.drop 14))
  else none

def tryDirectiveAt : Str → Option (Option Str)
  | '/' :: '/' :: rest => afterOpener rest
  | '/' :: '*' :: rest => afterOpener rest
  | _ => none

/-- `re.search` of the suppression pattern: leftmost matching position. -/
def searchDirective : Str → Option (Option Str)
  | [] => none
  | c :: rest =>
    match tryDirectiveAt (c :: rest) with
    | some g => some g
    | none => searchDirective rest

/-- Python `str.split()` (split on whitespace runs, no empty tokens). -/
def splitWsAux : Str → Str → List Str
  | [], acc => if acc = [] then [] else [acc.reverse]
  | c :: rest, acc =>
    if isPySpace c then
      if acc = [] then splitWsAux rest [] else acc.reverse :: splitWsAux rest []
    else splitWsAux rest (c :: acc)

def pySplitWs (s : Str) : List Str := splitWsAux s []

/-- The set of rules a matched directive suppresses: `all = true` models the
Python `None` member (no identifiers after the marker). -/
structure SuppSet where
  all : Bool
  rules : List Str
  deriving DecidableEq, Repr

/-- Per-line directive extraction: the regex search plus the
`rules_str.split()` / `{None}` dichotomy of `extract_suppressions`. -/
def lineSupp (line : Str) : Option SuppSet :=
  match searchDirective line with
  | none => none
  | some none => some ⟨true, []⟩
  | some (some g) => some ⟨false, (pySplitWs g).map toUpperStr⟩

/-- The suppression dictionary, as a total map (an absent line number behaves
exactly like an empty entry in `is_suppressed`). -/
def SuppMap := Nat → SuppSet

def emptySupp : SuppMap := fun _ => ⟨false, []⟩

def suppUnion (a b : SuppSet) : SuppSet := ⟨a.all || b.all, a.rules ++ b.rules⟩

def addSupp (m : SuppMap) (n : Nat) (s : SuppSet) : SuppMap :=
  fun k => if k = n then suppUnion (m k) s else m k

/-- The enumeration loop of `extract_suppressions`: a directive on 0-based
line `i` is recorded at 1-based lines `i+1` and `i+2`. -/
def extractGo : Nat → List Str → SuppMap → SuppMap
  | _, [], m => m
  | i, l :: ls, m =>
    match lineSupp l with
    | none => extractGo (i + 1) ls m
    | some s => extractGo (i + 1) ls (addSupp (addSupp m (i + 1) s) (i + 2) s)

/-- Python `str.split(sep)` for a single separator character. -/
def splitOnChar (sep : Char) : Str → List Str
  | [] => [[]]
  | c :: rest =>
    if c = sep then [] :: splitOnChar sep rest
    else
      match splitOnChar sep rest with
      | [] => [[c]]
      | h :: t => (c :: h) :: t

def extract_suppressions (content : Str) : SuppMap :=
  extractGo 0 (splitOnChar '\n' content) emptySupp

def is_suppressed (m : SuppMap) (lineNum : Nat) (ruleId : Str) : Bool :=
  (m lineNum).all || decide (toUpperStr ruleId ∈ (m lineNum).rules)

/-- `a` suppresses no more than `b`. -/
def SuppLE (a b : SuppSet) : Prop :=
  (a.all = true → b.all = true) ∧ ∀ r, r ∈ a.rules → r ∈ b.rules

theorem suppLE_refl (a : SuppSet) : SuppLE a a := ⟨fun h => h, fun _ h => h⟩

theorem suppLE_trans {a b c : SuppSet} (h1 : SuppLE a b) (h2 : SuppLE b c) : SuppLE a c :=
  ⟨fun h => h2.1 (h1.1 h), fun r hr => h2.2 r (h1.2 r hr)⟩

theorem suppLE_union_left (a b : SuppSet) : SuppLE a (suppUnion a b) := by
  refine ⟨fun h => ?_, fun r hr => ?_⟩
  · simp [suppUnion, h]
  · simp only [suppUnion, List.mem_append]
    exact Or.inl hr

theorem suppLE_union_right (a b : SuppSet) : SuppLE b (suppUnion a b) := by
  refine ⟨fun h => ?_, fun r hr => ?_⟩
  · simp [suppUnion, h]
  · simp only [suppUnion, List.mem_append]
    exact Or.inr hr

theorem addSupp_le (m : SuppMap) (n : Nat) (s : SuppSet) (k : Nat) :
    SuppLE (m k) (addSupp m n s k) := by
  unfold addSupp
  by_cases h : k = n
  · simpa [h] using suppLE_union_left (m k) s
  · simpa [h] using suppLE_refl (m k)

theorem addSupp_at (m : SuppMap) (n : Nat) (s : SuppSet) :
    SuppLE s (addSupp m n s n) := by
  unfold addSupp
  simpa using suppLE_union_right (m n) s

theorem addSupp_ne (m : SuppMap) (n : Nat) (s : SuppSet) (k : Nat) (h : k ≠ n) :
    addSupp m n s k = m k := by
  unfold addSupp
  simp [h]

theorem extractGo_cons_none (i0 : Nat) (l : Str) (ls : List Str) (m : SuppMap)
    (h : lineSupp l = none) : extractGo i0 (l :: ls) m = extractGo (i0 + 1) ls m := by
  simp [extractGo, h]

theorem extractGo_cons_some (i0 : Nat) (l : Str) (ls : List Str) (m : SuppMap) (s : SuppSet)
    (h : lineSupp l = some s) :
    extractGo i0 (l :: ls) m
      = extractGo (i0 + 1) ls (addSupp (addSupp m (i0 + 1) s) (i0 + 2) s) := by
  simp [extractGo, h]

theorem extractGo_le (ls : List Str) (i0 : Nat) (m : SuppMap) (n : Nat) :
    SuppLE (m n) (extractGo i0 ls m n) := by
  induction ls generalizing i0 m with
  | nil => exact suppLE_refl _
  | cons l ls ih =>
    simp only [extractGo]
    cases hl : lineSupp l with
    | none => exact ih (i0 + 1) m
    | some s =>
      exact suppLE_trans
        (suppLE_trans (addSupp_le m (i0 + 1) s n) (addSupp_le _ (i0 + 2) s n))
        (ih (i0 + 1) _)

theorem extractGo_contrib (ls : List Str) (i0 : Nat) (m : SuppMap) (j : Nat) (l : Str)
    (s : SuppSet) (n : Nat) (hj : ls.get? j = some l) (hl : lineSupp l = some s)
    (hn : n = i0 + j + 1 ∨ n = i0 + j + 2) :
    SuppLE s (extractGo i0 ls m n) := by
  induction ls generalizing i0 m j with
  | nil => simp at hj
  | cons a ls ih =>
    cases j with
    | zero =>
      simp only [List.get?, Option.some.injEq] at hj
      subst hj
      simp only [extractGo, hl]
      refine suppLE_trans ?_ (extractGo_le ls (i0 + 1) _ n)
      rcases hn with h | h
      · have hn' : n = i0 + 1 := by omega
        subst hn'
        rw [addSupp_ne _ _ _ _ (by omega)]
        exact addSupp_at m (i0 + 1) s
      · have hn' : n = i0 + 2 := by omega
        subst hn'
        exact addSupp_at _ (i0 + 2) s
    | succ j' =>
      simp only [List.get?] at hj
      simp only [extractGo]
      cases hl' : lineSupp a with
      | none =>
        exact ih (i0 + 1) m j' hj
          (by rcases hn with h | h
              · left; omega
              · right; omega)
      | some s' =>
        exact ih (i0 + 1) _ j' hj
          (by rcases hn with h | h
              · left; omega
              · right; omega)

theorem extractGo_none (ls : List Str) (i0 : Nat) (m : SuppMap) (n : Nat)
    (h : ∀ j l, ls.get? j = some l → (n = i0 + j + 1 ∨ n = i0 + j + 2) → lineSupp l = none) :
    extractGo i0 ls m n = m n := by
  induction ls generalizing i0 m with
  | nil => rfl
  | cons a ls ih =>
    cases hl : lineSupp a with
    | none =>
      rw [extractGo_cons_none i0 a ls m hl]
      exact ih (i0 + 1) m fun j l hj hn =>
        h (j + 1) l (by simpa using hj)
          (by rcases hn with h' | h'
              · left; omega
              · right; omega)
    | some s =>
      rw [extractGo_cons_some i0 a ls m s hl]
      by_cases hcase : n = i0 + 1 ∨ n = i0 + 2
      · have hnone := h 0 a (by simp)
          (by rcases hcase with h' | h'
              · left; omega
              · right; omega)
        rw [hnone] at hl
        cases hl
      · push_neg at hcase
        rw [ih (i0 + 1) _ fun j l hj hn =>
          h (j + 1) l (by simpa using hj)
            (by rcases hn with h' | h'
                · left; omega
                · right; omega)]
        rw [addSupp_ne _ _ _ _ hcase.2, addSupp_ne _ _ _ _ hcase.1]

/-- C3: a directive on 0-based line index `i` (1-based line `L = i+1`)
suppresses rule `R` at 1-based lines `L` and `L+1`; if it is the only
directive in the file, line `L+2` is not suppressed.  The `s.all` disjunct
covers a directive with no rule identifiers, which suppresses every rule at
those two lines. -/
theorem c3_inline_suppression (content : Str) (i : Nat) (line R : Str) (s : SuppSet)
    (hline : (splitOnChar '\n' content).get? i = some line)
    (hdir : lineSupp line = some s)
    (hR : s.all = true ∨ toUpperStr R ∈ s.rules) :
    is_suppressed (extract_suppressions content) (i + 1) R = true
    ∧ is_suppressed (extract_suppressions content) (i + 2) R = true
    ∧ ((∀ j l, (splitOnChar '\n' content).get? j = some l → j ≠ i → lineSupp l = none) →
        is_suppressed (extract_suppressions content) (i + 3) R = false) := by
  unfold extract_suppressions
  have h1 := extractGo_contrib (splitOnChar '\n' content) 0 emptySupp i line s (i + 1)
    hline hdir (Or.inl (by omega))
  have h2 := extractGo_contrib (splitOnChar '\n' content) 0 emptySupp i line s (i + 2)
    hline hdir (Or.inr (by omega))
  refine ⟨?_, ?_, ?_⟩
  · unfold is_suppressed
    rcases hR with ha | hm
    · simp [h1.1 ha]
    · simp [h1.2 _ hm]
  · unfold is_suppressed
    rcases hR with ha | hm
    · simp [h2.1 ha]
    · simp [h2.2 _ hm]
  · intro hno
    have hz := extractGo_none (splitOnChar '\n' content) 0 emptySupp (i + 3)
      (fun j l hj hn => hno j l hj (by omega))
    unfold is_suppressed
    rw [hz]
    simp [emptySupp]

def c3Demo : Str := "// @pre-deploy-ok LOOP007\nwhile (true) do x\nfoo\nbar".data

theorem c3_inline_suppression_witness :
    is_suppressed (extract_suppressions c3Demo) 1 "LOOP007".data = true
    ∧ is_suppressed (extract_suppressions c3Demo) 2 "LOOP007".data = true
    ∧ is_suppressed (extract_suppressions c3Demo) 3 "LOOP007".data = false := by
  have h := c3_inline_suppression c3Demo 0 "// @pre-deploy-ok LOOP007".data "LOOP007".data
    ⟨false, ["LOOP007".data]⟩ (by decide) (by decide) (Or.inr (by decide))
  refine ⟨h.1, h.2.1, h.2.2 ?_⟩
  intro j l hj hne
  have hsplit : splitOnChar '\n' c3Demo
      = ["// @pre-deploy-ok LOOP007".data, "while (true) do x".data,
         "foo".data, "bar".data] := by decide
  rw [hsplit] at hj
  rcases j with _ | _ | _ | _ | j
  · exact absurd rfl hne
  · simp only [List.get?, Option.some.injEq] at hj
    subst hj
    decide
  · simp only [List.get?, Option.some.injEq] at hj
    subst hj
    decide
  · simp only [List.get?, Option.some.injEq] at hj
    subst hj
    decide
  · simp only [List.get?] at hj
    exact Option.noConfusion hj

/-! ### Ignore file and context extraction (lines 85-253) -/

/-- Python `str.strip()`. -/
def pyStrip (s : Str) : Str :=
  ((s.dropWhile isPySpace).reverse.dropWhile isPySpace).reverse

def listStartsWith (pre s : Str) : Bool := decide (s.take pre.length = pre)

def queuePre : Str := "Queue '".data

def bucketPre : Str := "bucket '".data

/-- `re.search(r"X '([^']+)'", msg)` at one position: the literal prefix, then
a non-empty run of non-quote characters, then the closing quote. -/
def tryCaptureAt (pre : Str) (s : Str) : Option Str :=
  if listStartsWith pre s then
    let r := s.drop pre.length
    let cap := r.takeWhile (fun c => c != '\'')
    if cap ≠ [] ∧ (r.drop cap.length).head? = some '\'' then some cap else none
  else none

def searchCapture (pre : Str) : Str → Option Str
  | [] => none
  | c :: rest =>
    match tryCaptureAt pre (c :: rest) with
    | some cap => some cap
    | none => searchCapture pre rest

def atPre : Str := " at ".data

/-- `re.search(r' at ([^:]+):\d+', msg)` at one position. -/
def tryFileAt (s : Str) : Option Str :=
  if listStartsWith atPre s then
    let r := s.drop 4
    let cap := r.takeWhile (fun c => c != ':')
    if cap ≠ [] ∧ (r.drop cap.length).head? = some ':'
        ∧ ((r.drop (cap.length + 1)).head?.map Char.isDigit) = some true then
      some cap
    else none
  else none

def searchFile : Str → Option Str
  | [] => none
  | c :: rest =>
    match tryFileAt (c :: rest) with
    | some cap => some cap
    | none => searchFile rest

/-- `os.path.basename` for the slash-containing relative paths the hook
builds. -/
def basename (s : Str) : Str := (s.reverse.takeWhile (fun c => c != '/')).reverse

/-- Context extraction of `filter_ignored_issues` (lines 216-235), transcribed
statement by statement: a queue capture is assigned first, a bucket capture
then *overwrites* it, and the `path:line` capture is consulted only when the
context is still empty. -/
def extractContext (msg : Str) : Str :=
  let c1 := match searchCapture queuePre msg with
    | some q => q
    | none => []
  let c2 := match searchCapture bucketPre msg with
    | some b => b
    | none => c1
  if c2 = [] then
    match searchFile msg with
    | some f => f
    | none => c2
  else c2

/-- `contexts_to_check` (lines 237-240): the extracted context, plus its bare
file name when it contains a slash. -/
def contextsToCheck (msg : Str) : List Str :=
  let c := extractContext msg
  c :: (if c ≠ [] ∧ '/' ∈ c then [basename c] else [])

abbrev IgnoreMap := List (Str × List Str)

def igGet : IgnoreMap → Str → Option (List Str)
  | [], _ => none
  | (k, v) :: rest, key => if k = key then some v else igGet rest key

def igAddCtx : IgnoreMap → Str → Str → IgnoreMap
  | [], key, ctx => [(key, [ctx])]
  | (k, v) :: rest, key, ctx =>
    if k = key then (k, if ctx ∈ v then v else v ++ [ctx]) :: rest
    else (k, v) :: igAddCtx rest key ctx

inductive IgEffect where
  | skip
  | blocking (rid : Str)
  | suppress (rid ctx : Str)
  deriving DecidableEq, Repr

def beforeHash (s : Str) : Str := s.takeWhile (fun c => c != '#')

/-- What one line of `.pre-deploy-ignore` registers (`load_ignore_file`,
lines 116-148): comments stripped, `!RULE` into the blocking set, `RULE:ctx`
(with `*` meaning global) or bare `RULE` into the suppression map.  The empty
context models Python's `''` global marker. -/
def igLineEffect (rawLine : Str) : IgEffect :=
  let line := pyStrip (beforeHash rawLine)
  if line = [] then .skip
  else if line.head? = some '!' then
    let rid := toUpperStr (pyStrip (line.drop 1))
    if rid = [] then .skip else .blocking rid
  else if ':' ∈ line then
    let pre := line.takeWhile (fun c => c != ':')
    let rid := toUpperStr (pyStrip pre)
    let ctx0 := pyStrip (line.drop (pre.length + 1))
    let ctx := if ctx0 = "*".data then [] else ctx0
    if rid = [] then .skip
    else .suppress rid (if ctx = [] then [] else toLowerStr ctx)
  else
    let rid := toUpperStr (pyStrip line)
    if rid = [] then .skip else .suppress rid []

def igApply (st : IgnoreMap × List Str) (rawLine : Str) : IgnoreMap × List Str :=
  match igLineEffect rawLine with
  | .skip => st
  | .blocking rid => (st.1, if rid ∈ st.2 then st.2 else st.2 ++ [rid])
  | .suppress rid ctx => (igAddCtx st.1 rid ctx, st.2)

/-- `load_ignore_file`: returns `(ignore_rules, blocking_rules)`. -/
def load_ignore_file (content : Str) : IgnoreMap × List Str :=
  (splitOnChar '\n' content).foldl igApply ([], [])

/-- `is_rule_ignored` (lines 181-203). -/
def is_rule_ignored (ig : IgnoreMap) (ruleId : Str) (context : Str) : Bool :=
  match igGet ig (toUpperStr ruleId) with
  | none => false
  | some ctxs => decide ([] ∈ ctxs) || (decide (context ≠ []) && decide (toLowerStr context ∈ ctxs))

def issueIgnored (ig : IgnoreMap) (i : Issue) : Bool :=
  (contextsToCheck i.message).any (fun ctx => is_rule_ignored ig i.id ctx)

/-- `filter_ignored_issues` (lines 206-253). -/
def filter_ignored_issues (issues : List Issue) (ig : IgnoreMap) : List Issue :=
  if ig = [] then issues else issues.filter (fun i => !issueIgnored ig i)

/-- C4 counterexample: for a message carrying both a quoted queue name and a
quoted bucket name the context used is the *bucket* name, although the queue
extractor does match - so the queue extractor does not win. -/
theorem c4_counterexample :
    extractContext "Queue 'q1' uses bucket 'b1'".data = "b1".data
    ∧ searchCapture queuePre "Queue 'q1' uses bucket 'b1'".data = some "q1".data
    ∧ "b1".data ≠ "q1".data := by
  decide

theorem searchCapture_ne_nil (pre : Str) (s c : Str) (h : searchCapture pre s = some c) :
    c ≠ [] := by
  induction s with
  | nil => simp [searchCapture] at h
  | cons a rest ih =>
    simp only [searchCapture] at h
    cases htry : tryCaptureAt pre (a :: rest) with
    | none => rw [htry] at h; exact ih h
    | some cap =>
      rw [htry] at h
      simp only [Option.some.injEq] at h
      subst h
      unfold tryCaptureAt at htry
      by_cases hpre : listStartsWith pre (a :: rest) = true
      · rw [if_pos hpre] at htry
        dsimp only at htry
        split at htry
        · simp only [Option.some.injEq] at htry
          subst htry
          rename_i hcond
          exact hcond.1
        · exact Option.noConfusion htry
      · rw [if_neg hpre] at htry
        exact Option.noConfusion htry

/-- C4 (amended): the extractors are tried in the order queue, bucket,
`path:line`, but a bucket capture has priority over a queue capture (the last
quoted-name assignment wins), and the `path:line` extractor applies only when
neither quoted name matched; a slash-containing path context is checked both
as the full relative path and as the bare file name. -/
theorem c4_extraction_amended (msg : Str) :
    extractContext msg
      = (match searchCapture bucketPre msg with
         | some b => b
         | none =>
           match searchCapture queuePre msg with
           | some q => q
           | none =>
             match searchFile msg with
             | some f => f
             | none => [])
    ∧ (searchCapture bucketPre msg = none → searchCapture queuePre msg = none →
        ∀ f, searchFile msg = some f → '/' ∈ f →
          contextsToCheck msg = [f, basename f]) := by
  constructor
  · unfold extractContext
    cases hb : searchCapture bucketPre msg with
    | some b =>
      have hbne := searchCapture_ne_nil bucketPre msg b hb
      cases hq : searchCapture queuePre msg <;> simp [hb, hbne]
    | none =>
      cases hq : searchCapture queuePre msg with
      | some q =>
        have hqne := searchCapture_ne_nil queuePre msg q hq
        simp [hb, hq, hqne]
      | none => simp [hb, hq]
  · intro hb hq f hf hslash
    have hctx : extractContext msg = f := by
      unfold extractContext
      simp [hb, hq, hf]
    have hfne : f ≠ [] := by
      intro hc
      subst hc
      simp at hslash
    unfold contextsToCheck
    rw [hctx]
    simp [hfne, hslash]

theorem c4_extraction_amended_witness :
    contextsToCheck "D1 query at src/db.ts:12".data = ["src/db.ts".data, "db.ts".data] :=
  (c4_extraction_amended "D1 query at src/db.ts:12".data).2 (by decide) (by decide)
    "src/db.ts".data (by decide) (by decide)

def igHas (m : IgnoreMap) (rid ctx : Str) : Prop :=
  ∃ ctxs, igGet m rid = some ctxs ∧ ctx ∈ ctxs

theorem igAddCtx_has (m : IgnoreMap) (rid ctx : Str) : igHas (igAddCtx m rid ctx) rid ctx := by
  induction m with
  | nil =>
    refine ⟨[ctx], ?_, by simp⟩
    simp [igAddCtx, igGet]
  | cons kv rest ih =>
    obtain ⟨k, v⟩ := kv
    by_cases h : k = rid
    · subst h
      refine ⟨if ctx ∈ v then v else v ++ [ctx], ?_, ?_⟩
      · simp [igAddCtx, igGet]
      · by_cases hc : ctx ∈ v <;> simp [hc]
    · obtain ⟨ctxs, hget, hmem⟩ := ih
      refine ⟨ctxs, ?_, hmem⟩
      simp [igAddCtx, h, igGet, hget]

theorem igAddCtx_mono (m : IgnoreMap) (k c rid ctx : Str) (h : igHas m rid ctx) :
    igHas (igAddCtx m k c) rid ctx := by
  induction m with
  | nil =>
    obtain ⟨ctxs, hget, _⟩ := h
    simp [igGet] at hget
  | cons kv rest ih =>
    obtain ⟨k0, v0⟩ := kv
    obtain ⟨ctxs, hget, hmem⟩ := h
    by_cases hk : k0 = k
    · subst hk
      by_cases hr : k0 = rid
      · subst hr
        simp [igGet] at hget
        subst hget
        refine ⟨if c ∈ v0 then v0 else v0 ++ [c], ?_, ?_⟩
        · simp [igAddCtx, igGet]
        · by_cases hc : c ∈ v0 <;> simp [hc, hmem]
      · simp only [igGet, if_neg hr] at hget
        refine ⟨ctxs, ?_, hmem⟩
        simp [igAddCtx, igGet, hr, hget]
    · by_cases hr : k0 = rid
      · subst hr
        simp [igGet] at hget
        subst hget
        refine ⟨v0, ?_, hmem⟩
        simp [igAddCtx, hk, igGet]
      · simp only [igGet, if_neg hr] at hget
        obtain ⟨ctxs', hget', hmem'⟩ := ih ⟨ctxs, hget, hmem⟩
        refine ⟨ctxs', ?_, hmem'⟩
        simp [igAddCtx, hk, igGet, hr, hget']

theorem igApply_mono (st : IgnoreMap × List Str) (l : Str) (rid ctx : Str)
    (h : igHas st.1 rid ctx) : igHas (igApply st l).1 rid ctx := by
  unfold igApply
  cases heff : igLineEffect l with
  | skip => exact h
  | blocking r => exact h
  | suppress r c => exact igAddCtx_mono st.1 r c rid ctx h

theorem load_fold_mono (lines : List Str) (st : IgnoreMap × List Str) (rid ctx : Str)
    (h : igHas st.1 rid ctx) : igHas ((lines.foldl igApply st).1) rid ctx := by
  induction lines generalizing st with
  | nil => exact h
  | cons l ls ih => exact ih _ (igApply_mono st l rid ctx h)

theorem load_fold_has (lines : List Str) (st : IgnoreMap × List Str) (l : Str) (rid ctx : Str)
    (hmem : l ∈ lines) (heff : igLineEffect l = .suppress rid ctx) :
    igHas ((lines.foldl igApply st).1) rid ctx := by
  induction lines generalizing st with
  | nil => simp at hmem
  | cons a ls ih =>
    rcases List.mem_cons.mp hmem with h | h
    · subst h
      rw [List.foldl_cons]
      apply load_fold_mono
      unfold igApply
      rw [heff]
      exact igAddCtx_has st.1 rid ctx
    · exact ih _ h

theorem igGet_ne_nil (ig : IgnoreMap) (rid : Str) (ctxs : List Str)
    (h : igGet ig rid = some ctxs) : ig ≠ [] := by
  intro hc
  subst hc
  simp [igGet] at h

/-- C7: ignore-file suppression semantics.  (1) a global entry (`RULE` with
no context) removes every issue whose (upper-cased) id is that rule, whatever
its context; (2) when the rule's registered contexts contain no global marker,
an issue for that rule survives the filter exactly when none of its non-empty
candidate contexts matches a registered context case-insensitively - in
particular an issue with no extractable context always survives; (3) issues
whose rule has no entry at all are never removed. -/
theorem c7_ignore_file_semantics (content : Str) (issues : List Issue) (R : Str) :
    ((∃ l ∈ splitOnChar '\n' content, igLineEffect l = .suppress R []) →
      ∀ i ∈ filter_ignored_issues issues (load_ignore_file content).1,
        toUpperStr i.id ≠ R)
    ∧ (∀ ctxs, igGet (load_ignore_file content).1 R = some ctxs → [] ∉ ctxs →
        ∀ i ∈ issues, toUpperStr i.id = R →
          (i ∈ filter_ignored_issues issues (load_ignore_file content).1 ↔
            ∀ c ∈ contextsToCheck i.message, c = [] ∨ toLowerStr c ∉ ctxs))
    ∧ (∀ i ∈ issues, igGet (load_ignore_file content).1 (toUpperStr i.id) = none →
        i ∈ filter_ignored_issues issues (load_ignore_file content).1) := by
  refine ⟨?_, ?_, ?_⟩
  · rintro ⟨l, hl, heff⟩ i hi hid
    obtain ⟨ctxs, hget0, hctx⟩ :=
      load_fold_has (splitOnChar '\n' content) ([], []) l R [] hl heff
    have hget : igGet (load_ignore_file content).1 R = some ctxs := hget0
    have hne := igGet_ne_nil _ _ _ hget
    unfold filter_ignored_issues at hi
    rw [if_neg hne] at hi
    have hig := (List.mem_filter.mp hi).2
    simp only [Bool.not_eq_true'] at hig
    have : issueIgnored (load_ignore_file content).1 i = true := by
      unfold issueIgnored
      rw [List.any_eq_true]
      refine ⟨extractContext i.message, by simp [contextsToCheck], ?_⟩
      unfold is_rule_ignored
      rw [hid, hget]
      simp [hctx]
    rw [this] at hig
    exact Bool.noConfusion hig
  · intro ctxs hget hnog i hi hid
    have hne := igGet_ne_nil _ _ _ hget
    unfold filter_ignored_issues
    rw [if_neg hne]
    rw [List.mem_filter]
    have hrie : ∀ c, is_rule_ignored (load_ignore_file content).1 i.id c
        = (decide (c ≠ []) && decide (toLowerStr c ∈ ctxs)) := by
      intro c
      unfold is_rule_ignored
      rw [hid, hget]
      simp [hnog]
    constructor
    · rintro ⟨-, hflt⟩ c hc
      simp only [Bool.not_eq_true'] at hflt
      unfold issueIgnored at hflt
      rw [List.any_eq_false] at hflt
      have := hflt c hc
      rw [hrie c] at this
      simp only [Bool.and_eq_true, decide_eq_true_iff] at this
      by_cases hcc : c = []
      · exact Or.inl hcc
      · right
        intro hmem
        exact this ⟨by simpa using hcc, by simpa using hmem⟩
    · intro hall
      refine ⟨hi, ?_⟩
      simp only [Bool.not_eq_true']
      unfold issueIgnored
      rw [List.any_eq_false]
      intro c hc
      rw [hrie c]
      rcases hall c hc with h | h
      · subst h; simp
      · simp [h]
  · intro i hi hnone
    unfold filter_ignored_issues
    by_cases hne : (load_ignore_file content).1 = []
    · rw [if_pos hne]; exact hi
    · rw [if_neg hne]
      rw [List.mem_filter]
      refine ⟨hi, ?_⟩
      simp only [Bool.not_eq_true']
      unfold issueIgnored
      rw [List.any_eq_false]
      intro c hc
      unfold is_rule_ignored
      rw [hnone]
      simp

def c7Demo : Str := "RES001:orders\n".data

def c7Issue1 : Issue :=
  ⟨"RES001".data, "HIGH".data, "Queue 'orders' missing dead_letter_queue".data⟩

def c7Issue2 : Issue :=
  ⟨"RES001".data, "HIGH".data, "Queue 'payments' missing dead_letter_queue".data⟩

def c7Issue3 : Issue :=
  ⟨"RES001".data, "HIGH".data, "no extractable context here".data⟩

theorem c7_ignore_file_semantics_witness :
    c7Issue2 ∈ filter_ignored_issues [c7Issue1, c7Issue2, c7Issue3] (load_ignore_file c7Demo).1
    ∧ c7Issue3 ∈ filter_ignored_issues [c7Issue1, c7Issue2, c7Issue3] (load_ignore_file c7Demo).1 := by
  constructor
  · exact ((c7_ignore_file_semantics c7Demo [c7Issue1, c7Issue2, c7Issue3] "RES001".data).2.1
      ["orders".data] (by decide) (by decide) c7Issue2 (by decide) (by decide)).mpr (by decide)
  · exact ((c7_ignore_file_semantics c7Demo [c7Issue1, c7Issue2, c7Issue3] "RES001".data).2.1
      ["orders".data] (by decide) (by decide) c7Issue3 (by decide) (by decide)).mpr (by decide)

/-! ### JSONC comment stripping (`parse_jsonc`, lines 280-336) -/

/-- The inner `while i < n - 1` loop that skips a `/* ... */` comment body:
it consumes up to and including the first `*/`; with no terminator the loop
guard `i < n - 1` stops it with exactly one character left over, which the
outer loop then processes as ordinary text. -/
def skipBlock : Str → Str
  | [] => []
  | [c] => [c]
  | a :: b :: rest => if a = '*' ∧ b = '/' then rest else skipBlock (b :: rest)

/-- The character scan of `parse_jsonc` (fuel = remaining input length; each
iteration of the Python `while` consumes at least one character).  The
single-line-comment branch drops from the first `/` while characters differ
from a newline, so both slashes are dropped too. -/
def stripJsoncAux : Nat → Str → Bool → Bool → Str
  | _, [], _, _ => []
  | 0, _ :: _, _, _ => []
  | fuel + 1, c :: rest, inStr, esc =>
    if esc = true then c :: stripJsoncAux fuel rest inStr false
    else if c = '\\' ∧ inStr = true then c :: stripJsoncAux fuel rest inStr true
    else if c = '"' then c :: stripJsoncAux fuel rest (!inStr) false
    else if inStr = true then c :: stripJsoncAux fuel rest inStr false
    else
      match rest with
      | [] => c :: stripJsoncAux fuel [] inStr false
      | c2 :: r2 =>
        if c = '/' ∧ c2 = '/' then
          stripJsoncAux fuel (List.dropWhile (fun d => d != '\n') (c :: c2 :: r2)) false false
        else if c = '/' ∧ c2 = '*' then stripJsoncAux fuel (skipBlock r2) false false
        else c :: stripJsoncAux fuel (c2 :: r2) inStr false

/-- The comment-stripping pass of `parse_jsonc` (before trailing-comma
removal and the strict JSON parse). -/
def parse_jsonc_strip (content : Str) : Str :=
  stripJsoncAux content.length content false false

inductive JMode where
  | outside
  | inString
  | inEscape
  deriving DecidableEq, Repr

/-- Spec model: the rest of the input after the first `*/`, if any. -/
def afterBlockClose : Str → Option Str
  | [] => none
  | [_] => none
  | a :: b :: rest => if a = '*' ∧ b = '/' then some rest else afterBlockClose (b :: rest)

def keepLastOnly : Str → Str
  | [] => []
  | a :: t => [(a :: t).getLast (List.cons_ne_nil a t)]

/-- Spec model of the comment-stripping stage (spec section 4.1), with the
amended unterminated-block rule: outside strings, `//` elides through (not
including) the end of line and `/*` elides through the next `*/`; an
unterminated block comment elides everything that remains except the final
character; every other character passes through unchanged, including all
characters, escapes and quotes inside quoted strings. -/
def stripSpecAux : Nat → Str → JMode → Str
  | _, [], _ => []
  | 0, _ :: _, _ => []
  | fuel + 1, c :: rest, .outside =>
    if (c :: rest).take 2 = "//".data then
      stripSpecAux fuel (List.dropWhile (fun d => d != '\n') (c :: rest)) .outside
    else if (c :: rest).take 2 = "/*".data then
      match afterBlockClose ((c :: rest).drop 2) with
      | some r => stripSpecAux fuel r .outside
      | none => keepLastOnly ((c :: rest).drop 2)
    else if c = '"' then c :: stripSpecAux fuel rest .inString
    else c :: stripSpecAux fuel rest .outside
  | fuel + 1, c :: rest, .inString =>
    if c = '\\' then c :: stripSpecAux fuel rest .inEscape
    else if c = '"' then c :: stripSpecAux fuel rest .outside
    else c :: stripSpecAux fuel rest .inString
  | fuel + 1, c :: rest, .inEscape => c :: stripSpecAux fuel rest .inString

def stripSpecModel (content : Str) : Str := stripSpecAux content.length content .outside

/-- C5 counterexample: an unterminated block comment does *not* consume every
remaining character - the final character survives the pass. -/
theorem c5_counterexample :
    parse_jsonc_strip "/*a".data = "a".data ∧ "a".data ≠ ([] : Str) := by
  decide

theorem skipBlock_close (l r : Str) (h : afterBlockClose l = some r) : skipBlock l = r := by
  induction l with
  | nil => simp [afterBlockClose] at h
  | cons a t ih =>
    cases t with
    | nil => simp [afterBlockClose] at h
    | cons b t2 =>
      by_cases hab : a = '*' ∧ b = '/'
      · simp only [afterBlockClose, if_pos hab, Option.some.injEq] at h
        subst h
        simp [skipBlock, hab]
      · simp only [afterBlockClose, if_neg hab] at h
        simp only [skipBlock, if_neg hab]
        exact ih h

theorem skipBlock_unterminated (l : Str) (h : afterBlockClose l = none) :
    skipBlock l = keepLastOnly l := by
  induction l with
  | nil => rfl
  | cons a t ih =>
    cases t with
    | nil => rfl
    | cons b t2 =>
      by_cases hab : a = '*' ∧ b = '/'
      · simp only [afterBlockClose, if_pos hab] at h
        exact Option.noConfusion h
      · simp only [afterBlockClose, if_neg hab] at h
        simp only [skipBlock, if_neg hab]
        rw [ih h]
        simp [keepLastOnly, List.getLast]

theorem afterBlockClose_length (l r : Str) (h : afterBlockClose l = some r) :
    r.length ≤ l.length := by
  induction l with
  | nil => simp [afterBlockClose] at h
  | cons a t ih =>
    cases t with
    | nil => simp [afterBlockClose] at h
    | cons b t2 =>
      by_cases hab : a = '*' ∧ b = '/'
      · simp only [afterBlockClose, if_pos hab, Option.some.injEq] at h
        subst h
        simp
        omega
      · simp only [afterBlockClose, if_neg hab] at h
        have := ih h
        simp at this ⊢
        omega

theorem stripJsoncAux_single (f : Nat) (c : Char) :
    stripJsoncAux (f + 1) [c] false false = [c] := by
  simp only [stripJsoncAux]
  by_cases hq : c = '"' <;> simp [hq]

theorem dropWhile_length_le (p : Char → Bool) (l : Str) :
    (List.dropWhile p l).length ≤ l.length := by
  induction l with
  | nil => simp
  | cons a t ih =>
    by_cases h : p a = true
    · simp only [List.dropWhile, h, List.length_cons]
      omega
    · have h' : p a = false := by simpa using h
      simp [List.dropWhile, h']

theorem strip_equiv (f : Nat) : ∀ l : Str, l.length ≤ f →
    (stripJsoncAux f l false false = stripSpecAux f l .outside)
    ∧ (stripJsoncAux f l true false = stripSpecAux f l .inString)
    ∧ (stripJsoncAux f l true true = stripSpecAux f l .inEscape) := by
  induction f with
  | zero =>
    intro l hl
    cases l with
    | nil => exact ⟨rfl, rfl, rfl⟩
    | cons c rest => simp at hl
  | succ f ih =>
    intro l hl
    cases l with
    | nil => exact ⟨rfl, rfl, rfl⟩
    | cons c rest =>
      have hrest : rest.length ≤ f := by
        simp only [List.length_cons] at hl
        omega
      refine ⟨?_, ?_, ?_⟩
      · -- outside mode: inStr = false, esc = false
        cases rest with
        | nil =>
          simp only [stripJsoncAux, stripSpecAux]
          rw [show List.take 2 [c] = [c] from rfl,
            if_neg (show ¬(false = true) by simp),
            if_neg (show ¬(c = '\\' ∧ false = true) by simp),
            if_neg (show ¬([c] = ['/', '/']) by simp),
            if_neg (show ¬([c] = ['/', '*']) by simp)]
          by_cases hq : c = '"'
          · rw [if_pos hq, if_pos hq]
          · rw [if_neg hq, if_neg hq, if_neg (show ¬(false = true) by simp)]
        | cons c2 r2 =>
          simp only [stripJsoncAux, stripSpecAux]
          rw [if_neg (show ¬(false = true) by simp),
            if_neg (show ¬(c = '\\' ∧ false = true) by simp)]
          by_cases h11 : c = '/' ∧ c2 = '/'
          · obtain ⟨rfl, rfl⟩ := h11
            rw [show List.take 2 ('/' :: '/' :: r2) = ['/', '/'] from rfl,
              if_neg (show ¬('/' = '"') by decide),
              if_neg (show ¬(false = true) by simp),
              if_pos (show ('/' = '/' ∧ '/' = '/') by decide),
              if_pos (show (['/', '/'] : Str) = ['/', '/'] from rfl)]
            have hdrop : (List.dropWhile (fun d => d != '\n') ('/' :: '/' :: r2)).length ≤ f := by
              have h1 : List.dropWhile (fun d => d != '\n') ('/' :: '/' :: r2)
                  = List.dropWhile (fun d => d != '\n') r2 := by
                simp [List.dropWhile]
              rw [h1]
              have := dropWhile_length_le (fun d => d != '\n') r2
              simp only [List.length_cons] at hl
              omega
            exact (ih _ hdrop).1
          · by_cases h12 : c = '/' ∧ c2 = '*'
            · obtain ⟨rfl, rfl⟩ := h12
              rw [show List.take 2 ('/' :: '*' :: r2) = ['/', '*'] from rfl,
                show List.drop 2 ('/' :: '*' :: r2) = r2 from rfl,
                if_neg (show ¬('/' = '"') by decide),
                if_neg (show ¬(false = true) by simp),
                if_neg (show ¬('/' = '/' ∧ '*' = '/') by decide),
                if_pos (show ('/' = '/' ∧ '*' = '*') by decide),
                if_neg (show ¬((['/', '*'] : Str) = ['/', '/']) by decide),
                if_pos (show (['/', '*'] : Str) = ['/', '*'] from rfl)]
              cases hterm : afterBlockClose r2 with
              | some r =>
                rw [skipBlock_close r2 r hterm]
                have hr : r.length ≤ f := by
                  have := afterBlockClose_length r2 r hterm
                  simp only [List.length_cons] at hl
                  omega
                exact (ih r hr).1
              | none =>
                rw [skipBlock_unterminated r2 hterm]
                cases r2 with
                | nil => simp [keepLastOnly, stripJsoncAux]
                | cons a t =>
                  have hf1 : 1 ≤ f := by
                    simp only [List.length_cons] at hl
                    omega
                  obtain ⟨f2, rfl⟩ : ∃ f2, f = f2 + 1 := ⟨f - 1, by omega⟩
                  simp only [keepLastOnly]
                  exact stripJsoncAux_single f2 _
            · rw [show List.take 2 (c :: c2 :: r2) = [c, c2] from rfl,
                if_neg (show ¬([c, c2] = ['/', '/']) by
                  simp only [List.cons.injEq, and_true]
                  exact h11),
                if_neg (show ¬([c, c2] = ['/', '*']) by
                  simp only [List.cons.injEq, and_true]
                  exact h12)]
              by_cases hq : c = '"'
              · rw [if_pos hq, if_pos hq]
                exact congrArg _ (ih _ hrest).2.1
              · rw [if_neg hq, if_neg hq, if_neg (show ¬(false = true) by simp),
                  if_neg h11, if_neg h12]
                exact congrArg _ (ih _ hrest).1
      · -- inString mode: inStr = true, esc = false
        simp only [stripJsoncAux, stripSpecAux]
        rw [if_neg (show ¬(false = true) by simp)]
        by_cases hb : c = '\\'
        · rw [if_pos (show (c = '\\' ∧ True) from ⟨hb, trivial⟩), if_pos hb]
          exact congrArg _ (ih _ hrest).2.2
        · rw [if_neg (show ¬(c = '\\' ∧ True) by simp [hb]), if_neg hb]
          by_cases hq : c = '"'
          · rw [if_pos hq, if_pos hq]
            exact congrArg _ (ih _ hrest).1
          · rw [if_neg hq, if_neg hq, if_pos trivial]
            exact congrArg _ (ih _ hrest).2.1
      · -- inEscape mode: inStr = true, esc = true
        simp only [stripJsoncAux, stripSpecAux]
        rw [if_pos trivial]
        exact congrArg _ (ih _ hrest).2.1

/-- C5 (amended): the comment-stripping pass of `parse_jsonc` elides exactly
the comment text (outside quoted strings, `//` through end-of-line and `/*`
through the next `*/`) and passes every other character through unchanged,
including all characters, escapes, and quotes inside quoted strings - except
that an unterminated block comment consumes every remaining character *but
the last*, which passes through and is processed as ordinary text. -/
theorem c5_strip_amended (content : Str) :
    parse_jsonc_strip content = stripSpecModel content :=
  (strip_equiv content.length content (Nat.le_refl _)).1

/-! ### Simplified TOML parser (`parse_toml_simple`, lines 345-425) -/

/-- A parsed configuration value: Python scalars, dicts (insertion-ordered)
and lists.  Floats keep their literal text (their numeric value plays no role
in the audit logic modelled here). -/
inductive TVal where
  | str (s : Str)
  | bool (b : Bool)
  | int (n : Int)
  | float (s : Str)
  | table (entries : List (Str × TVal))
  | arr (items : List TVal)

/-- Ordered-dict lookup. -/
def tGet : List (Str × TVal) → Str → Option TVal
  | [], _ => none
  | (k, v) :: rest, key => if k = key then some v else tGet rest key

/-- Ordered-dict assignment: replaces in place, appends new keys at the end. -/
def tSet : List (Str × TVal) → Str → TVal → List (Str × TVal)
  | [], key, v => [(key, v)]
  | (k, w) :: rest, key, v =>
    if k = key then (k, v) :: rest else (k, w) :: tSet rest key v

/-- A step of the `current_section` reference path. -/
inductive PStep where
  | key (k : Str)
  | idx (n : Nat)

def splitDots (s : Str) : List Str := splitOnChar '.' s

/-- `[[a.b]]` header processing: navigate/create dotted prefix tables, then
append a fresh table to the sequence at the final segment.  An existing
non-table met while navigating, or a non-sequence at the final segment,
raises in Python (`TypeError`/`AttributeError`) before any mutation; this is
modelled as `none`. -/
def aotInsert : List (Str × TVal) → List Str → Option (List (Str × TVal) × List PStep)
  | _, [] => none
  | t, [last] =>
    match tGet t last with
    | none => some (tSet t last (.arr [.table []]), [.key last, .idx 0])
    | some (.arr items) =>
      some (tSet t last (.arr (items ++ [.table []])), [.key last, .idx items.length])
    | some _ => none
  | t, p :: p2 :: ps =>
    match tGet t p with
    | none =>
      match aotInsert [] (p2 :: ps) with
      | some (sub, path) => some (tSet t p (.table sub), .key p :: path)
      | none => none
    | some (.table sub) =>
      match aotInsert sub (p2 :: ps) with
      | some (sub2, path) => some (tSet t p (.table sub2), .key p :: path)
      | none => none
    | some _ => none

/-- `[a.b]` header processing: navigate/create each dotted segment; the final
segment is entered without a type check (Python defers the error to the next
key-value assignment), while an existing non-table at a non-final segment
raises. -/
def secNav : List (Str × TVal) → List Str → Option (List (Str × TVal) × List PStep)
  | t, [] => some (t, [])
  | t, [last] =>
    match tGet t last with
    | none => some (tSet t last (.table []), [.key last])
    | some _ => some (t, [.key last])
  | t, p :: p2 :: ps =>
    match tGet t p with
    | none =>
      match secNav [] (p2 :: ps) with
      | some (sub, path) => some (tSet t p (.table sub), .key p :: path)
      | none => none
    | some (.table sub) =>
      match secNav sub (p2 :: ps) with
      | some (sub2, path) => some (tSet t p (.table sub2), .key p :: path)
      | none => none
    | some _ => none

/-- `current_section[key] = value` through the stored path; assignment into a
non-table raises in Python, modelled as `none`. -/
def setAtPathV : TVal → List PStep → Str → TVal → Option TVal
  | v, [], key, val =>
    match v with
    | .table t => some (.table (tSet t key val))
    | _ => none
  | v, .key p :: rest, key, val =>
    match v with
    | .table t =>
      match tGet t p with
      | some sub =>
        match setAtPathV sub rest key val with
        | some sub2 => some (.table (tSet t p sub2))
        | none => none
      | none => none
    | _ => none
  | v, .idx i :: rest, key, val =>
    match v with
    | .arr items =>
      match items.get? i with
      | some sub =>
        match setAtPathV sub rest key val with
        | some sub2 => some (.arr (items.set i sub2))
        | none => none
      | none => none
    | _ => none

def setAtPathRoot (t : List (Str × TVal)) (path : List PStep) (key : Str) (v : TVal) :
    Option (List (Str × TVal)) :=
  match setAtPathV (.table t) path key v with
  | some (.table t2) => some t2
  | _ => none

def pyStripChars (cs : List Char) (s : Str) : Str :=
  ((s.dropWhile (fun c => decide (c ∈ cs))).reverse.dropWhile (fun c => decide (c ∈ cs))).reverse

def allDigits (s : Str) : Bool := decide (s ≠ []) && s.all Char.isDigit

/-- `^-?\d+$`. -/
def intRegexMatch (s : Str) : Bool :=
  match s with
  | '-' :: rest => allDigits rest
  | _ => allDigits s

/-- `^-?\d+\.\d+$`. -/
def floatRegexMatch (s : Str) : Bool :=
  let core := match s with
    | '-' :: rest => rest
    | _ => s
  let ip := core.takeWhile Char.isDigit
  let rest := core.drop ip.length
  decide (ip ≠ []) && (match rest with
    | '.' :: fp => allDigits fp
    | _ => false)

def digitsToNat (s : Str) : Nat := s.foldl (fun a c => a * 10 + (c.toNat - '0'.toNat)) 0

def intVal (s : Str) : Int :=
  match s with
  | '-' :: rest => -(digitsToNat rest : Int)
  | _ => (digitsToNat s : Int)

/-- Value coercion of the key-value branch: strip whitespace, then all outer
double quotes, then single quotes; `true`/`false` (case-insensitive) to
boolean; digits to int; `-?\d+\.\d+` to float; otherwise the string. -/
def parseTomlValue (raw : Str) : TVal :=
  let v := pyStripChars ['\''] (pyStripChars ['"'] (pyStrip raw))
  if toLowerStr v = "true".data then .bool true
  else if toLowerStr v = "false".data then .bool false
  else if allDigits v = true then .int (digitsToNat v)
  else if intRegexMatch v = true then .int (intVal v)
  else if floatRegexMatch v = true then .float v
  else .str v

inductive LineShape where
  | blank
  | comment
  | aot (name : Str)
  | sec (name : Str)
  | kv (key : Str) (val : TVal)
  | skipLine

/-- Classification of one line of `parse_toml_simple`'s loop, in exactly the
order the source tests: blank, `#` comment, `[[...]]`, `[...]`, first `=`,
skip. -/
def lineShape (rawLine : Str) : LineShape :=
  let line := pyStrip rawLine
  if line = [] then .blank
  else if line.head? = some '#' then .comment
  else if line.take 2 = "[[".data ∧ line.drop (line.length - 2) = "]]".data then
    .aot (pyStrip ((line.drop 2).take (line.length - 4)))
  else if line.take 1 = "[".data ∧ line.drop (line.length - 1) = "]".data then
    .sec (pyStrip ((line.drop 1).take (line.length - 2)))
  else if '=' ∈ line then
    .kv (pyStrip (line.takeWhile (fun c => c != '=')))
      (parseTomlValue (line.drop ((line.takeWhile (fun c => c != '=')).length + 1)))
  else .skipLine

structure PTState where
  root : List (Str × TVal)
  path : List PStep

def processTomlLine (st : PTState) (rawLine : Str) : Option PTState :=
  match lineShape rawLine with
  | .blank => some st
  | .comment => some st
  | .skipLine => some st
  | .aot name =>
    match aotInsert st.root (splitDots name) with
    | some (root2, path) => some ⟨root2, path⟩
    | none => none
  | .sec name =>
    match secNav st.root (splitDots name) with
    | some (root2, path) => some ⟨root2, path⟩
    | none => none
  | .kv key v =>
    match setAtPathRoot st.root st.path key v with
    | some root2 => some ⟨root2, st.path⟩
    | none => none

def parseTomlLines : List Str → PTState → Option PTState
  | [], st => some st
  | l :: ls, st =>
    match processTomlLine st l with
    | some st2 => parseTomlLines ls st2
    | none => none

def parse_toml_simple (content : Str) : Option (List (Str × TVal)) :=
  (parseTomlLines (splitOnChar '\n' content) ⟨[], []⟩).map PTState.root

def countAoT (x : Str) (lines : List Str) : Nat :=
  lines.countP (fun l => match lineShape l with
    | .aot name => decide (name = x)
    | _ => false)

/-- C6 counterexample: an input with one `[[x]]` header in which `x` is also
a regular `[x]` section crashes `parse_toml_simple` (Python
`AttributeError`: a dict has no `append`), so no mapping with a one-entry
sequence for `x` is returned. -/
theorem c6_counterexample :
    (parse_toml_simple "[x]\n[[x]]".data).isNone = true
    ∧ countAoT "x".data (splitOnChar '\n' "[x]\n[[x]]".data) = 1 := by
  decide

def updateLastEntry : List (List (Str × TVal)) → Str → TVal → List (List (Str × TVal))
  | [], _, _ => []
  | [e], k, v => [tSet e k v]
  | e :: e2 :: rest, k, v => e :: updateLastEntry (e2 :: rest) k v

/-- Spec-side description of the `[[x]]` array-of-tables contents: one entry
per `[[x]]` header, in declaration order, each holding the key-value pairs
written between that header and the next section header. -/
def c6Step (x : Str) (acc : List (List (Str × TVal)) × Bool) (rawLine : Str) :
    List (List (Str × TVal)) × Bool :=
  match lineShape rawLine with
  | .aot name => if name = x then (acc.1 ++ [[]], true) else (acc.1, false)
  | .sec _ => (acc.1, false)
  | .kv k v => if acc.2 then (updateLastEntry acc.1 k v, true) else acc
  | _ => acc

def c6Expected (x : Str) (lines : List Str) : List (List (Str × TVal)) :=
  (lines.foldl (c6Step x) ([], false)).1

/-- The side condition of the amended C6: the name `x` is only ever bound at
the root by its own undotted `[[x]]` headers (no `[x]` section and no header
whose first dotted segment is `x`). -/
def c6LineOk (x : Str) (rawLine : Str) : Bool :=
  match lineShape rawLine with
  | .aot name => decide (name = x) || decide ((splitDots name).head? ≠ some x)
  | .sec name => decide ((splitDots name).head? ≠ some x)
  | _ => true

def notContainer : TVal → Prop
  | .table _ => False
  | .arr _ => False
  | _ => True

theorem parseTomlValue_notContainer (raw : Str) : notContainer (parseTomlValue raw) := by
  unfold parseTomlValue
  dsimp only
  split
  · trivial
  · split
    · trivial
    · split
      · trivial
      · split
        · trivial
        · split
          · trivial
          · trivial

theorem lineShape_kv_notContainer (l : Str) (k : Str) (v : TVal)
    (h : lineShape l = .kv k v) : notContainer v := by
  unfold lineShape at h
  dsimp only at h
  split at h
  · exact LineShape.noConfusion h
  · split at h
    · exact LineShape.noConfusion h
    · split at h
      · exact LineShape.noConfusion h
      · split at h
        · exact LineShape.noConfusion h
        · split at h
          · injection h with h1 h2
            subst h2
            exact parseTomlValue_notContainer _
          · exact LineShape.noConfusion h

theorem tGet_tSet_self (t : List (Str × TVal)) (k : Str) (v : TVal) :
    tGet (tSet t k v) k = some v := by
  induction t with
  | nil => simp [tSet, tGet]
  | cons kv rest ih =>
    obtain ⟨k0, v0⟩ := kv
    by_cases h : k0 = k
    · simp [tSet, tGet, h]
    · simp [tSet, tGet, h, ih]

theorem tGet_tSet_ne (t : List (Str × TVal)) (k k2 : Str) (v : TVal) (h : k2 ≠ k) :
    tGet (tSet t k v) k2 = tGet t k2 := by
  induction t with
  | nil =>
    simp only [tSet, tGet]
    rw [if_neg (fun hc => h (Eq.symm hc))]
  | cons kv rest ih =>
    obtain ⟨k0, v0⟩ := kv
    by_cases h0 : k0 = k
    · subst h0
      have h1 : tSet ((k0, v0) :: rest) k0 v = (k0, v) :: rest := by simp [tSet]
      rw [h1]
      simp only [tGet]
      rw [if_neg (fun hc => h (Eq.symm hc)), if_neg (fun hc => h (Eq.symm hc))]
    · simp only [tSet, if_neg h0, tGet]
      by_cases h2 : k0 = k2
      · simp [h2]
      · simp [h2, ih]

theorem splitOnChar_ne_nil (sep : Char) (s : Str) : splitOnChar sep s ≠ [] := by
  cases s with
  | nil => simp [splitOnChar]
  | cons c rest =>
    simp only [splitOnChar]
    by_cases h : c = sep
    · simp [h]
    · rw [if_neg h]
      cases splitOnChar sep rest <;> simp

theorem splitOnChar_eq_single (sep : Char) (s : Str) (h : ∀ c ∈ s, c ≠ sep) :
    splitOnChar sep s = [s] := by
  induction s with
  | nil => rfl
  | cons c rest ih =>
    simp only [splitOnChar]
    rw [if_neg (h c (by simp)), ih (fun d hd => h d (by simp [hd]))]

theorem aotInsert_shape (t : List (Str × TVal)) (y : Str) (ps : List Str)
    (t2 : List (Str × TVal)) (path : List PStep)
    (h : aotInsert t (y :: ps) = some (t2, path)) :
    (∀ z, z ≠ y → tGet t2 z = tGet t z) ∧ ∃ tail, path = .key y :: tail := by
  cases ps with
  | nil =>
    simp only [aotInsert] at h
    cases htg : tGet t y with
    | none =>
      rw [htg] at h
      simp only [Option.some.injEq, Prod.mk.injEq] at h
      obtain ⟨rfl, rfl⟩ := h
      exact ⟨fun z hz => tGet_tSet_ne t y z _ hz, _, rfl⟩
    | some v =>
      rw [htg] at h
      cases v with
      | arr items =>
        simp only [Option.some.injEq, Prod.mk.injEq] at h
        obtain ⟨rfl, rfl⟩ := h
        exact ⟨fun z hz => tGet_tSet_ne t y z _ hz, _, rfl⟩
      | str s => exact Option.noConfusion h
      | bool b => exact Option.noConfusion h
      | int n => exact Option.noConfusion h
      | float s => exact Option.noConfusion h
      | table e => exact Option.noConfusion h
  | cons p2 rest =>
    simp only [aotInsert] at h
    cases htg : tGet t y with
    | none =>
      rw [htg] at h
      dsimp only at h
      cases hrec : aotInsert [] (p2 :: rest) with
      | none => rw [hrec] at h; exact Option.noConfusion h
      | some pr =>
        obtain ⟨sub, tail⟩ := pr
        rw [hrec] at h
        simp only [Option.some.injEq, Prod.mk.injEq] at h
        obtain ⟨rfl, rfl⟩ := h
        exact ⟨fun z hz => tGet_tSet_ne t y z _ hz, _, rfl⟩
    | some v =>
      rw [htg] at h
      cases v with
      | table sub0 =>
        dsimp only at h
        cases hrec : aotInsert sub0 (p2 :: rest) with
        | none => rw [hrec] at h; exact Option.noConfusion h
        | some pr =>
          obtain ⟨sub, tail⟩ := pr
          rw [hrec] at h
          simp only [Option.some.injEq, Prod.mk.injEq] at h
          obtain ⟨rfl, rfl⟩ := h
          exact ⟨fun z hz => tGet_tSet_ne t y z _ hz, _, rfl⟩
      | str s => exact Option.noConfusion h
      | bool b => exact Option.noConfusion h
      | int n => exact Option.noConfusion h
      | float s => exact Option.noConfusion h
      | arr items => exact Option.noConfusion h

theorem secNav_shape (t : List (Str × TVal)) (y : Str) (ps : List Str)
    (t2 : List (Str × TVal)) (path : List PStep)
    (h : secNav t (y :: ps) = some (t2, path)) :
    (∀ z, z ≠ y → tGet t2 z = tGet t z) ∧ ∃ tail, path = .key y :: tail := by
  cases ps with
  | nil =>
    simp only [secNav] at h
    cases htg : tGet t y with
    | none =>
      rw [htg] at h
      simp only [Option.some.injEq, Prod.mk.injEq] at h
      obtain ⟨rfl, rfl⟩ := h
      exact ⟨fun z hz => tGet_tSet_ne t y z _ hz, _, rfl⟩
    | some v =>
      rw [htg] at h
      simp only [Option.some.injEq, Prod.mk.injEq] at h
      obtain ⟨rfl, rfl⟩ := h
      exact ⟨fun z _ => rfl, _, rfl⟩
  | cons p2 rest =>
    simp only [secNav] at h
    cases htg : tGet t y with
    | none =>
      rw [htg] at h
      dsimp only at h
      cases hrec : secNav [] (p2 :: rest) with
      | none => rw [hrec] at h; exact Option.noConfusion h
      | some pr =>
        obtain ⟨sub, tail⟩ := pr
        rw [hrec] at h
        simp only [Option.some.injEq, Prod.mk.injEq] at h
        obtain ⟨rfl, rfl⟩ := h
        exact ⟨fun z hz => tGet_tSet_ne t y z _ hz, _, rfl⟩
    | some v =>
      rw [htg] at h
      cases v with
      | table sub0 =>
        dsimp only at h
        cases hrec : secNav sub0 (p2 :: rest) with
        | none => rw [hrec] at h; exact Option.noConfusion h
        | some pr =>
          obtain ⟨sub, tail⟩ := pr
          rw [hrec] at h
          simp only [Option.some.injEq, Prod.mk.injEq] at h
          obtain ⟨rfl, rfl⟩ := h
          exact ⟨fun z hz => tGet_tSet_ne t y z _ hz, _, rfl⟩
      | str s => exact Option.noConfusion h
      | bool b => exact Option.noConfusion h
      | int n => exact Option.noConfusion h
      | float s => exact Option.noConfusion h
      | arr items => exact Option.noConfusion h

theorem setAtPathRoot_nil (t : List (Str × TVal)) (key : Str) (v : TVal) :
    setAtPathRoot t [] key v = some (tSet t key v) := rfl

theorem setAtPathRoot_key_preserves (t : List (Str × TVal)) (y : Str) (ps : List PStep)
    (key : Str) (v : TVal) (t2 : List (Str × TVal)) (x : Str) (hyx : y ≠ x)
    (h : setAtPathRoot t (.key y :: ps) key v = some t2) :
    tGet t2 x = tGet t x := by
  unfold setAtPathRoot at h
  simp only [setAtPathV] at h
  cases htg : tGet t y with
  | none => rw [htg] at h; exact Option.noConfusion h
  | some sub =>
    rw [htg] at h
    dsimp only at h
    cases hrec : setAtPathV sub ps key v with
    | none => rw [hrec] at h; exact Option.noConfusion h
    | some sub2 =>
      rw [hrec] at h
      simp only [Option.some.injEq] at h
      subst h
      exact tGet_tSet_ne t y x _ (fun hc => hyx (Eq.symm hc))

theorem updateLastEntry_length (es : List (List (Str × TVal))) (k : Str) (v : TVal) :
    (updateLastEntry es k v).length = es.length := by
  induction es with
  | nil => rfl
  | cons a rest ih =>
    cases rest with
    | nil => rfl
    | cons b rest2 =>
      simp only [updateLastEntry, List.length_cons]
      rw [ih]
      simp

theorem updateLastEntry_spec (es : List (List (Str × TVal))) (k : Str) (v : TVal)
    (hne : es ≠ []) :
    ∃ e, (es.map TVal.table).get? (es.length - 1) = some (.table e)
      ∧ (es.map TVal.table).set (es.length - 1) (.table (tSet e k v))
          = (updateLastEntry es k v).map TVal.table := by
  induction es with
  | nil => exact absurd rfl hne
  | cons a rest ih =>
    cases rest with
    | nil => exact ⟨a, rfl, rfl⟩
    | cons b rest2 =>
      obtain ⟨e, hget, hset⟩ := ih (by simp)
      refine ⟨e, ?_, ?_⟩
      · simpa using hget
      · simp only [List.map_cons, List.length_cons, updateLastEntry]
        have hn : (b :: rest2).length - 1 + 1 = rest2.length + 1 + 1 - 1 := by
          simp
        rw [show rest2.length + 1 + 1 - 1 = ((b :: rest2).length - 1) + 1 by simp]
        rw [List.set_cons_succ]
        simp only [List.map_cons] at hset
        rw [hset]

theorem setAtPathRoot_x_entry (t : List (Str × TVal)) (x : Str) (items : List TVal)
    (i : Nat) (e : List (Str × TVal)) (key : Str) (v : TVal)
    (hx : tGet t x = some (.arr items)) (hi : items.get? i = some (.table e)) :
    setAtPathRoot t [.key x, .idx i] key v
      = some (tSet t x (.arr (items.set i (.table (tSet e key v))))) := by
  unfold setAtPathRoot
  simp only [setAtPathV]
  rw [hx]
  dsimp only
  rw [hi]

theorem c6Step_fold_length (x : Str) (lines : List Str) :
    ∀ (es : List (List (Str × TVal))) (b : Bool),
    ((lines.foldl (c6Step x) (es, b)).1).length = es.length + countAoT x lines := by
  induction lines with
  | nil => intro es b; simp [countAoT]
  | cons l ls ih =>
    intro es b
    simp only [List.foldl_cons, countAoT, List.countP_cons] at ih ⊢
    cases hl : lineShape l with
    | aot name =>
      by_cases hn : name = x
      · subst hn
        simp only [c6Step, hl, if_pos rfl]
        rw [ih]
        simp
        omega
      · simp only [c6Step, hl, if_neg hn]
        rw [ih]
        simp [hn]
    | sec name =>
      simp only [c6Step, hl]
      rw [ih]
      simp
    | kv k v =>
      simp only [c6Step, hl]
      by_cases hb : b = true
      · subst hb
        simp only [if_pos rfl]
        rw [ih]
        simp [updateLastEntry_length]
      · have hb2 : b = false := by simpa using hb
        subst hb2
        simp only [Bool.false_eq_true, if_false]
        rw [ih]
        simp
    | blank =>
      simp only [c6Step, hl]
      rw [ih]
      simp
    | comment =>
      simp only [c6Step, hl]
      rw [ih]
      simp
    | skipLine =>
      simp only [c6Step, hl]
      rw [ih]
      simp

/-- Invariant tying the parser state to the spec-side fold: the root binding
of `x`, and where the current write target points. -/
def C6Inv (x : Str) (st : PTState) (es : List (List (Str × TVal))) (inX : Bool) : Prop :=
  (es = [] → inX = false ∧
    (tGet st.root x = none ∨ ∃ v, tGet st.root x = some v ∧ notContainer v))
  ∧ (es ≠ [] → tGet st.root x = some (.arr (es.map TVal.table)))
  ∧ (inX = true → es ≠ [] ∧ st.path = [.key x, .idx (es.length - 1)])
  ∧ (inX = false → (st.path = [] ∧ es = []) ∨ ∃ y ps, st.path = .key y :: ps ∧ y ≠ x)

theorem c6_invariant (x : Str) (hx : ∀ c ∈ x, c ≠ '.') :
    ∀ (lines : List Str) (st : PTState) (es : List (List (Str × TVal))) (inX : Bool)
      (stF : PTState),
      (∀ l ∈ lines, c6LineOk x l = true) →
      C6Inv x st es inX →
      parseTomlLines lines st = some stF →
      C6Inv x stF (lines.foldl (c6Step x) (es, inX)).1 (lines.foldl (c6Step x) (es, inX)).2 := by
  intro lines
  induction lines with
  | nil =>
    intro st es inX stF hok hinv hrun
    simp only [parseTomlLines, Option.some.injEq] at hrun
    subst hrun
    simpa using hinv
  | cons l ls ih =>
    intro st es inX stF hok hinv hrun
    simp only [parseTomlLines] at hrun
    simp only [List.foldl_cons]
    have hokl : c6LineOk x l = true := hok l (by simp)
    have hokls : ∀ l2 ∈ ls, c6LineOk x l2 = true := fun l2 h2 => hok l2 (by simp [h2])
    cases hshape : lineShape l with
    | blank =>
      have hstep : processTomlLine st l = some st := by
        simp [processTomlLine, hshape]
      rw [hstep] at hrun
      dsimp only at hrun
      have hc6 : c6Step x (es, inX) l = (es, inX) := by simp [c6Step, hshape]
      rw [hc6]
      exact ih st es inX stF hokls hinv hrun
    | comment =>
      have hstep : processTomlLine st l = some st := by
        simp [processTomlLine, hshape]
      rw [hstep] at hrun
      dsimp only at hrun
      have hc6 : c6Step x (es, inX) l = (es, inX) := by simp [c6Step, hshape]
      rw [hc6]
      exact ih st es inX stF hokls hinv hrun
    | skipLine =>
      have hstep : processTomlLine st l = some st := by
        simp [processTomlLine, hshape]
      rw [hstep] at hrun
      dsimp only at hrun
      have hc6 : c6Step x (es, inX) l = (es, inX) := by simp [c6Step, hshape]
      rw [hc6]
      exact ih st es inX stF hokls hinv hrun
    | kv k v =>
      have hvScalar : notContainer v := lineShape_kv_notContainer l k v hshape
      cases inX with
      | true =>
        obtain ⟨hne, hpath⟩ := hinv.2.2.1 rfl
        have hroot := hinv.2.1 hne
        obtain ⟨e, hget, hset⟩ := updateLastEntry_spec es k v hne
        have hsp := setAtPathRoot_x_entry st.root x (es.map TVal.table) (es.length - 1)
          e k v hroot hget
        have hstep : processTomlLine st l
            = some ⟨tSet st.root x
                (.arr ((es.map TVal.table).set (es.length - 1) (.table (tSet e k v)))),
              [.key x, .idx (es.length - 1)]⟩ := by
          simp only [processTomlLine, hshape]
          rw [hpath, hsp]
        rw [hstep] at hrun
        dsimp only at hrun
        have hc6 : c6Step x (es, true) l = (updateLastEntry es k v, true) := by
          simp [c6Step, hshape]
        rw [hc6]
        refine ih _ _ _ stF hokls ⟨?_, ?_, ?_, ?_⟩ hrun
        · intro hc
          have := congrArg List.length hc
          rw [updateLastEntry_length] at this
          simp at this
          exact absurd this (by simpa using hne)
        · intro _
          show tGet (tSet st.root x _) x = _
          rw [tGet_tSet_self, hset]
        · intro _
          refine ⟨?_, ?_⟩
          · intro hc
            have := congrArg List.length hc
            rw [updateLastEntry_length] at this
            simp at this
            exact absurd this (by simpa using hne)
          · show ([.key x, .idx (es.length - 1)] : List PStep) = _
            rw [updateLastEntry_length]
        · intro hc
          exact Bool.noConfusion hc
      | false =>
        rcases hinv.2.2.2 rfl with ⟨hpath, hes⟩ | ⟨y, ps, hpath, hyx⟩
        · subst hes
          have hstep : processTomlLine st l = some ⟨tSet st.root k v, st.path⟩ := by
            simp only [processTomlLine, hshape]
            rw [hpath, setAtPathRoot_nil]
          rw [hstep] at hrun
          dsimp only at hrun
          have hc6 : c6Step x ([], false) l = ([], false) := by
            simp [c6Step, hshape]
          rw [hc6]
          refine ih _ _ _ stF hokls ⟨?_, ?_, ?_, ?_⟩ hrun
          · intro _
            refine ⟨rfl, ?_⟩
            by_cases hkx : k = x
            · subst hkx
              refine Or.inr ⟨v, ?_, hvScalar⟩
              exact tGet_tSet_self st.root k v
            · rcases (hinv.1 rfl).2 with hnone | ⟨w, hw, hws⟩
              · refine Or.inl ?_
                show tGet (tSet st.root k v) x = none
                rw [tGet_tSet_ne st.root k x v (fun hc => hkx (Eq.symm hc)), hnone]
              · refine Or.inr ⟨w, ?_, hws⟩
                show tGet (tSet st.root k v) x = some w
                rw [tGet_tSet_ne st.root k x v (fun hc => hkx (Eq.symm hc)), hw]
          · intro hc
            exact absurd rfl hc
          · intro hc
            exact Bool.noConfusion hc
          · intro _
            exact Or.inl ⟨hpath, rfl⟩
        · cases hsp : setAtPathRoot st.root st.path k v with
          | none =>
            have hstep : processTomlLine st l = none := by
              simp [processTomlLine, hshape, hsp]
            rw [hstep] at hrun
            exact Option.noConfusion hrun
          | some root2 =>
            have hstep : processTomlLine st l = some ⟨root2, st.path⟩ := by
              simp [processTomlLine, hshape, hsp]
            rw [hstep] at hrun
            dsimp only at hrun
            have hpres : tGet root2 x = tGet st.root x := by
              rw [hpath] at hsp
              exact setAtPathRoot_key_preserves st.root y ps k v root2 x hyx hsp
            have hc6 : c6Step x (es, false) l = (es, false) := by
              simp [c6Step, hshape]
            rw [hc6]
            refine ih _ _ _ stF hokls ⟨?_, ?_, ?_, ?_⟩ hrun
            · intro hes
              refine ⟨rfl, ?_⟩
              rcases (hinv.1 hes).2 with hnone | ⟨w, hw, hws⟩
              · exact Or.inl (by rw [show tGet (⟨root2, st.path⟩ : PTState).root x
                    = tGet root2 x from rfl, hpres, hnone])
              · exact Or.inr ⟨w, by rw [show tGet (⟨root2, st.path⟩ : PTState).root x
                    = tGet root2 x from rfl, hpres, hw], hws⟩
            · intro hes
              show tGet root2 x = _
              rw [hpres]
              exact hinv.2.1 hes
            · intro hc
              exact Bool.noConfusion hc
            · intro _
              exact Or.inr ⟨y, ps, hpath, hyx⟩
    | aot name =>
      have hok2 : name = x ∨ (splitDots name).head? ≠ some x := by
        have h0 := hokl
        simp only [c6LineOk, hshape] at h0
        simpa using h0
      by_cases hnx : name = x
      · subst hnx
        have hsplit : splitDots name = [name] := splitOnChar_eq_single '.' name hx
        by_cases hes : es = []
        · obtain ⟨hinXf, hrx⟩ := hinv.1 hes
          rcases hrx with hnone | ⟨v, hv, hscal⟩
          · have haot : aotInsert st.root [name]
                = some (tSet st.root name (.arr [.table []]), [.key name, .idx 0]) := by
              simp only [aotInsert]
              rw [hnone]
            have hstep : processTomlLine st l
                = some ⟨tSet st.root name (.arr [.table []]), [.key name, .idx 0]⟩ := by
              simp only [processTomlLine, hshape, hsplit, haot]
            rw [hstep] at hrun
            dsimp only at hrun
            have hc6 : c6Step name (es, inX) l = (es ++ [[]], true) := by
              simp [c6Step, hshape]
            rw [hc6]
            subst hes
            refine ih _ _ _ stF hokls ⟨?_, ?_, ?_, ?_⟩ hrun
            · intro hc
              simp at hc
            · intro _
              exact tGet_tSet_self st.root name _
            · intro _
              exact ⟨by simp, rfl⟩
            · intro hc
              exact Bool.noConfusion hc
          · have haot : aotInsert st.root [name] = none := by
              simp only [aotInsert]
              rw [hv]
              cases v with
              | str s => rfl
              | bool b => rfl
              | int n => rfl
              | float s => rfl
              | table e => exact hscal.elim
              | arr a => exact hscal.elim
            have hstep : processTomlLine st l = none := by
              simp [processTomlLine, hshape, hsplit, haot]
            rw [hstep] at hrun
            exact Option.noConfusion hrun
        · have hroot := hinv.2.1 hes
          have haot : aotInsert st.root [name]
              = some (tSet st.root name (.arr (es.map TVal.table ++ [.table []])),
                  [.key name, .idx (es.map TVal.table).length]) := by
            simp only [aotInsert]
            rw [hroot]
          have hstep : processTomlLine st l
              = some ⟨tSet st.root name (.arr (es.map TVal.table ++ [.table []])),
                  [.key name, .idx (es.map TVal.table).length]⟩ := by
            simp only [processTomlLine, hshape, hsplit, haot]
          rw [hstep] at hrun
          dsimp only at hrun
          have hc6 : c6Step name (es, inX) l = (es ++ [[]], true) := by
            simp [c6Step, hshape]
          rw [hc6]
          refine ih _ _ _ stF hokls ⟨?_, ?_, ?_, ?_⟩ hrun
          · intro hc
            simp at hc
          · intro _
            show tGet (tSet st.root name _) name = _
            rw [tGet_tSet_self]
            simp
          · intro _
            refine ⟨by simp, ?_⟩
            show ([.key name, .idx (es.map TVal.table).length] : List PStep) = _
            simp
          · intro hc
            exact Bool.noConfusion hc
      · have hhead : (splitDots name).head? ≠ some x := by
          rcases hok2 with hc | hh
          · exact absurd hc hnx
          · exact hh
        cases hsd : splitDots name with
        | nil => exact absurd hsd (splitOnChar_ne_nil '.' name)
        | cons y rest2 =>
          have hyx : y ≠ x := by
            intro hc
            rw [hsd, hc] at hhead
            exact hhead rfl
          cases haot : aotInsert st.root (y :: rest2) with
          | none =>
            have hstep : processTomlLine st l = none := by
              simp [processTomlLine, hshape, hsd, haot]
            rw [hstep] at hrun
            exact Option.noConfusion hrun
          | some pr =>
            obtain ⟨t2, path2⟩ := pr
            obtain ⟨hpres, tail, htail⟩ := aotInsert_shape st.root y rest2 t2 path2 haot
            have hstep : processTomlLine st l = some ⟨t2, path2⟩ := by
              simp [processTomlLine, hshape, hsd, haot]
            rw [hstep] at hrun
            dsimp only at hrun
            have hc6 : c6Step x (es, inX) l = (es, false) := by
              simp [c6Step, hshape, hnx]
            rw [hc6]
            refine ih _ _ _ stF hokls ⟨?_, ?_, ?_, ?_⟩ hrun
            · intro hes
              refine ⟨rfl, ?_⟩
              rcases (hinv.1 hes).2 with hnone | ⟨w, hw, hws⟩
              · exact Or.inl (by rw [show tGet (⟨t2, path2⟩ : PTState).root x
                    = tGet t2 x from rfl, hpres x (fun hc => hyx (Eq.symm hc)), hnone])
              · exact Or.inr ⟨w, by rw [show tGet (⟨t2, path2⟩ : PTState).root x
                    = tGet t2 x from rfl, hpres x (fun hc => hyx (Eq.symm hc)), hw], hws⟩
            · intro hes
              show tGet t2 x = _
              rw [hpres x (fun hc => hyx (Eq.symm hc))]
              exact hinv.2.1 hes
            · intro hc
              exact Bool.noConfusion hc
            · intro _
              exact Or.inr ⟨y, tail, htail, hyx⟩
    | sec name =>
      have hhead : (splitDots name).head? ≠ some x := by
        have h0 := hokl
        simp only [c6LineOk, hshape] at h0
        simpa using h0
      cases hsd : splitDots name with
      | nil => exact absurd hsd (splitOnChar_ne_nil '.' name)
      | cons y rest2 =>
        have hyx : y ≠ x := by
          intro hc
          rw [hsd, hc] at hhead
          exact hhead rfl
        cases hnav : secNav st.root (y :: rest2) with
        | none =>
          have hstep : processTomlLine st l = none := by
            simp [processTomlLine, hshape, hsd, hnav]
          rw [hstep] at hrun
          exact Option.noConfusion hrun
        | some pr =>
          obtain ⟨t2, path2⟩ := pr
          obtain ⟨hpres, tail, htail⟩ := secNav_shape st.root y rest2 t2 path2 hnav
          have hstep : processTomlLine st l = some ⟨t2, path2⟩ := by
            simp [processTomlLine, hshape, hsd, hnav]
          rw [hstep] at hrun
          dsimp only at hrun
          have hc6 : c6Step x (es, inX) l = (es, false) := by
            simp [c6Step, hshape]
          rw [hc6]
          refine ih _ _ _ stF hokls ⟨?_, ?_, ?_, ?_⟩ hrun
          · intro hes
            refine ⟨rfl, ?_⟩
            rcases (hinv.1 hes).2 with hnone | ⟨w, hw, hws⟩
            · exact Or.inl (by rw [show tGet (⟨t2, path2⟩ : PTState).root x
                  = tGet t2 x from rfl, hpres x (fun hc => hyx (Eq.symm hc)), hnone])
            · exact Or.inr ⟨w, by rw [show tGet (⟨t2, path2⟩ : PTState).root x
                  = tGet t2 x from rfl, hpres x (fun hc => hyx (Eq.symm hc)), hw], hws⟩
          · intro hes
            show tGet t2 x = _
            rw [hpres x (fun hc => hyx (Eq.symm hc))]
            exact hinv.2.1 hes
          · intro hc
            exact Bool.noConfusion hc
          · intro _
            exact Or.inr ⟨y, tail, htail, hyx⟩

/-- C6 (amended): provided the name `x` is only bound at the root by its own
undotted `[[x]]` headers (no `[x]` section header and no header whose first
dotted segment is `x` - otherwise the parser can raise, see the
counterexample), whenever `parse_toml_simple` returns a mapping it maps `x`
to a sequence with exactly one entry per `[[x]]` header line, in declaration
order, each entry holding the key-value pairs written between its header and
the next section header. -/
theorem c6_aot_amended (x content : Str) (root : List (Str × TVal))
    (hx : ∀ c ∈ x, c ≠ '.')
    (hok : ∀ l ∈ splitOnChar '\n' content, c6LineOk x l = true)
    (hcount : 1 ≤ countAoT x (splitOnChar '\n' content))
    (hparse : parse_toml_simple content = some root) :
    tGet root x = some (.arr ((c6Expected x (splitOnChar '\n' content)).map TVal.table))
    ∧ (c6Expected x (splitOnChar '\n' content)).length
        = countAoT x (splitOnChar '\n' content) := by
  unfold parse_toml_simple at hparse
  cases hrun : parseTomlLines (splitOnChar '\n' content) ⟨[], []⟩ with
  | none =>
    rw [hrun] at hparse
    exact Option.noConfusion hparse
  | some stF =>
    rw [hrun] at hparse
    simp only [Option.map_some', Option.some.injEq] at hparse
    have hinv0 : C6Inv x ⟨[], []⟩ [] false := by
      exact ⟨fun _ => ⟨rfl, Or.inl rfl⟩, fun hc => absurd rfl hc,
        fun hc => Bool.noConfusion hc, fun _ => Or.inl ⟨rfl, rfl⟩⟩
    have hinv := c6_invariant x hx (splitOnChar '\n' content) ⟨[], []⟩ [] false stF
      hok hinv0 hrun
    have hlen := c6Step_fold_length x (splitOnChar '\n' content) [] false
    have hlen2 : (c6Expected x (splitOnChar '\n' content)).length
        = countAoT x (splitOnChar '\n' content) := by
      show ((splitOnChar '\n' content).foldl (c6Step x) ([], false)).1.length = _
      rw [hlen]
      simp
    have hne : c6Expected x (splitOnChar '\n' content) ≠ [] := by
      intro hc
      rw [hc] at hlen2
      simp at hlen2
      omega
    refine ⟨?_, hlen2⟩
    rw [← hparse]
    exact hinv.2.1 hne

def c6DemoContent : Str := "[[x]]\na = 1\n[[x]]\nb = 2".data

def c6DemoRoot : List (Str × TVal) :=
  [("x".data, .arr [.table [("a".data, .int 1)], .table [("b".data, .int 2)]])]

theorem c6_aot_amended_witness :
    tGet c6DemoRoot "x".data
      = some (.arr ((c6Expected "x".data (splitOnChar '\n' c6DemoContent)).map TVal.table))
    ∧ (c6Expected "x".data (splitOnChar '\n' c6DemoContent)).length
      = countAoT "x".data (splitOnChar '\n' c6DemoContent) :=
  c6_aot_amended "x".data c6DemoContent c6DemoRoot (by decide) (by decide) (by decide) (by rfl)

/-! ### Secrets in vars (`check_secrets_in_vars`, lines 443-471) and the
config gate of `main` (lines 1614-1621) -/

def secretPatterns : List Str :=
  ["API_KEY".data, "SECRET".data, "PASSWORD".data, "TOKEN".data, "PRIVATE".data,
   "CREDENTIAL".data]

def containsSeq (needle : Str) : Str → Bool
  | [] => decide (needle = [])
  | c :: rest => listStartsWith needle (c :: rest) || containsSeq needle rest

/-- `re.search(pattern, key, re.IGNORECASE)` for the literal secret tokens. -/
def containsCI (needle hay : Str) : Bool := containsSeq (toLowerStr needle) (toLowerStr hay)

/-- Python truthiness of a parsed config value (for floats, by their literal
digits). -/
def pyTruthy : TVal → Bool
  | .str s => decide (s ≠ [])
  | .bool b => b
  | .int n => decide (n ≠ 0)
  | .float s => !((s.filter Char.isDigit).all (fun c => decide (c = '0')))
  | .table t => !t.isEmpty
  | .arr a => !a.isEmpty

def natToStrAux : Nat → Nat → Str
  | 0, _ => []
  | fuel + 1, n =>
    if n < 10 then [Nat.digitChar n]
    else natToStrAux fuel (n / 10) ++ [Nat.digitChar (n % 10)]

def natToStr (n : Nat) : Str := natToStrAux (n + 1) n

def intToStr (n : Int) : Str :=
  if n < 0 then '-' :: natToStr n.natAbs else natToStr n.toNat

/-- Python `str(value)` for the scalar values the config parsers produce.
Containers are not modelled (`none`); under a `[vars]` section key-value
lines only ever produce scalars, and no theorem below evaluates a container
here.  Floats are rendered by their stored literal. -/
def pyStrOf : TVal → Option Str
  | .str s => some s
  | .bool true => some "True".data
  | .bool false => some "False".data
  | .int n => some (intToStr n)
  | .float s => some s
  | .table _ => none
  | .arr _ => none

/-- The guard `value and len(str(value)) > 8 and not value.startswith("${")`
of `check_secrets_in_vars`; `none` models an uncaught exception
(`AttributeError`: only strings have `startswith`). -/
def secretCond (v : TVal) : Option Bool :=
  if pyTruthy v = false then some false
  else
    match pyStrOf v with
    | none => none
    | some s =>
      if s.length ≤ 8 then some false
      else
        match v with
        | .str sv => some (!listStartsWith "$\x7b".data sv)
        | _ => none

def issueSEC001 (k : Str) : Issue :=
  ⟨"SEC001".data, "CRITICAL".data, "Potential secret in plaintext: vars.".data ++ k⟩

def secretIssuesForKey : List Str → Str → TVal → Option (List Issue)
  | [], _, _ => some []
  | p :: ps, k, v =>
    if containsCI p k then
      match secretCond v with
      | none => none
      | some b =>
        match secretIssuesForKey ps k v with
        | none => none
        | some rest => some ((if b then [issueSEC001 k] else []) ++ rest)
    else secretIssuesForKey ps k v

def secretScanVars : List (Str × TVal) → Option (List Issue)
  | [] => some []
  | (k, v) :: rest =>
    match secretIssuesForKey secretPatterns k v with
    | none => none
    | some is1 =>
      match secretScanVars rest with
      | none => none
      | some is2 => some (is1 ++ is2)

/-- `check_secrets_in_vars`: `config.get("vars", {})`, then the nested
pattern/value loop.  `none` models an exception escaping to `run_audit`'s
caller (nothing in `run_audit` or `main` catches it). -/
def check_secrets_in_vars (config : List (Str × TVal)) : Option (List Issue) :=
  match tGet config "vars".data with
  | none => some []
  | some (.table vars) => secretScanVars vars
  | some _ => none

/-- C8: `check_secrets_in_vars` does *not* return a result for every vars
mapping.  A non-string scalar whose decimal text is longer than 8 characters
(here the int `123456789` under the key `API_KEY`, as produced by
`parse_toml_simple` for `API_KEY = 123456789`) reaches
`value.startswith("${")` and raises `AttributeError`; neither `run_audit`
nor `main` catches it, so the hook dies with a traceback (exit 1) instead of
the documented exit 0 / exit 2.  The same mapping with a long string value
behaves as specified. -/
theorem c8_secret_crash :
    check_secrets_in_vars [("vars".data, .table [("API_KEY".data, .int 123456789)])] = none
    ∧ check_secrets_in_vars
        [("vars".data, .table [("API_KEY".data, .str "sk_live_abcdef123456".data)])]
      = some [issueSEC001 "API_KEY".data] := by
  decide

inductive GateResult where
  | skipAudit
  | runAudit (config : List (Str × TVal))

/-- The config gate of `main` (lines 1614-1621): `load_wrangler_config`
returning `None` (parse failure) and a parsed-but-falsy (empty) mapping take
the same `if not config: sys.exit(0)` branch, before `run_audit` - and hence
before every audit check, including the source-tree scans - is ever called. -/
def mainConfigGate : Option (List (Str × TVal)) → GateResult
  | none => .skipAudit
  | some [] => .skipAudit
  | some cfg => .runAudit cfg

def gateExit : GateResult → Option Nat
  | .skipAudit => some 0
  | .runAudit _ => none

/-- C10: a configuration that parses to an empty mapping (for example a file
containing only comments) is treated by `main` exactly like a failed parse:
the gate skips the audit entirely and exits 0. -/
theorem c10_empty_config_gate (content : Str)
    (h : parse_toml_simple content = some []) :
    mainConfigGate (parse_toml_simple content) = .skipAudit
    ∧ mainConfigGate (parse_toml_simple content) = mainConfigGate none
    ∧ gateExit (mainConfigGate (parse_toml_simple content)) = some 0 := by
  rw [h]
  exact ⟨rfl, rfl, rfl⟩

theorem c10_empty_config_gate_witness :
    gateExit (mainConfigGate (parse_toml_simple "# only comments\n# nothing else".data))
      = some 0 :=
  (c10_empty_config_gate "# only comments\n# nothing else".data (by rfl)).2.2
